import Mathlib

/-!
Verification of the `refact-vibe-code-backend` repository.

The development shallowly embeds the agent-capable revision of `server.js`
(the `RefactAgent` class and its workflow) and the chat-intent revision's
`analyzeUserIntent` classifier.  JavaScript strings are modelled as lists of
characters; JSON values (the shapes produced by `JSON.parse`) as an inductive
type; the two external collaborators (the LLM gateway and the GitHub
`createOrUpdateFileContents` endpoint) as stub functions indexed by call
number, so that theorems can quantify over arbitrary stub behaviour and the
traces of calls the code makes are explicit data.
-/

namespace RefactVibe

/-- JavaScript strings, modelled as lists of characters. -/
abbrev JStr := List Char

/-- Coerce a Lean string literal to the `JStr` model. -/
def js (s : String) : JStr := s.data

/-- The ASCII fragment of `String.prototype.toLowerCase` (`msg.toLowerCase()`
in `server.js`); every string the repository lowercases is ASCII. -/
def jsLowerChar (c : Char) : Char :=
  if h : 65 ≤ c.toNat ∧ c.toNat ≤ 90 then
    Char.ofNatAux (c.toNat + 32) (Or.inl (by omega))
  else c

/-- `s.toLowerCase()` on the model. -/
def toLowerJ (s : JStr) : JStr := s.map jsLowerChar

/-- `hay.includes(needle)` for JavaScript strings: substring containment. -/
def includesJ (hay needle : JStr) : Bool :=
  match hay with
  | [] => needle.isEmpty
  | _ :: t => needle.isPrefixOf hay || includesJ t needle

/-- `s.split(sep)` for a single-character separator, with JavaScript's
semantics: `""` splits to `[""]`, a trailing separator yields a trailing
empty piece. -/
def splitOnChar (sep : Char) (xs : JStr) : List JStr :=
  match xs with
  | [] => [[]]
  | c :: cs =>
    let parts := splitOnChar sep cs
    if c = sep then [] :: parts
    else
      match parts with
      | [] => [[c]]
      | p :: ps => (c :: p) :: ps

/-- Join pieces with a single-character separator (inverse of `splitOnChar`). -/
def joinSep (sep : Char) : List JStr → JStr
  | [] => []
  | p :: ps =>
    match ps with
    | [] => p
    | _ :: _ => p ++ sep :: joinSep sep ps

/-- JSON values as produced by `JSON.parse`, together with `undef`, which
models the JavaScript value `undefined` (used for absent properties; the
parser itself never produces it).  Numbers keep their source lexeme: the
repository never computes with a JSON number's value. -/
inductive Json where
  | undef : Json
  | null : Json
  | bool : Bool → Json
  | num : JStr → Json
  | str : JStr → Json
  | arr : List Json → Json
  | obj : List (JStr × Json) → Json

/-- JavaScript strict equality against a string literal (`v === 'create'`
and the like — the only `===` comparisons the embedded code performs). -/
def jsEqStr (v : Json) (s : JStr) : Bool :=
  match v with
  | Json.str t => t = s
  | _ => false

/-- JavaScript property assignment `o[k] = v` on an object's field list:
an existing key keeps its position and gets the new value, a new key is
appended. -/
def objInsert (k : JStr) (v : Json) (fields : List (JStr × Json)) :
    List (JStr × Json) :=
  if fields.any (fun q => q.1 = k) then
    fields.map (fun q => if q.1 = k then (k, v) else q)
  else fields ++ [(k, v)]

/-- JavaScript `delete o[k]` on an object's field list. -/
def objRemove (k : JStr) (fields : List (JStr × Json)) : List (JStr × Json) :=
  fields.filter (fun q => ¬ q.1 = k)

/-- Property lookup on a field list, yielding `undefined` when absent. -/
def fieldsGet (fields : List (JStr × Json)) (k : JStr) : Json :=
  match fields.find? (fun q => q.1 = k) with
  | some q => q.2
  | none => Json.undef

/-- JavaScript property access `v.k`: `undefined` on non-objects and on
absent keys.  (Exotic properties such as `.length` of arrays are handled
at the one place the code reads them, `jsLengthGtZero`.) -/
def jsGet (v : Json) (k : JStr) : Json :=
  match v with
  | Json.obj fields => fieldsGet fields k
  | _ => Json.undef

/-- A JSON number lexeme denotes zero iff it has no nonzero digit. -/
def numLexemeZero (lex : JStr) : Bool :=
  lex.all (fun c => ¬ ('1' ≤ c ∧ c ≤ '9'))

/-- JavaScript truthiness of a value. -/
def truthy : Json → Bool
  | Json.undef => false
  | Json.null => false
  | Json.bool b => b
  | Json.num lex => ¬ numLexemeZero lex
  | Json.str s => ¬ s.isEmpty
  | Json.arr _ => true
  | Json.obj _ => true

mutual

/-- JavaScript string coercion (template literals, property keys).  The
number case returns the stored lexeme, which is the canonical rendering
for the integer literals the code can meet. -/
def jsToString : Json → JStr
  | Json.undef => js "undefined"
  | Json.null => js "null"
  | Json.bool true => js "true"
  | Json.bool false => js "false"
  | Json.num lex => lex
  | Json.str s => s
  | Json.arr xs => joinSep ',' (jsToStringList xs)
  | Json.obj _ => js "[object Object]"

/-- `Array.prototype.toString` renders `null`/`undefined` elements as empty. -/
def jsToStringList : List Json → List JStr
  | [] => []
  | x :: xs =>
    (match x with
     | Json.undef => []
     | Json.null => []
     | v => jsToString v) :: jsToStringList xs

end

/-! ### `JSON.parse`, over the character-list model -/

/-- JSON whitespace. -/
def isJsonWs (c : Char) : Bool := c = ' ' ∨ c = '\t' ∨ c = '\n' ∨ c = '\r'

def skipWs (s : JStr) : JStr := s.dropWhile isJsonWs

def isDigitChar (c : Char) : Bool := '0' ≤ c ∧ c ≤ '9'

def hexVal (c : Char) : Option Nat :=
  if '0' ≤ c ∧ c ≤ '9' then some (c.toNat - 48)
  else if 'a' ≤ c ∧ c ≤ 'f' then some (c.toNat - 87)
  else if 'A' ≤ c ∧ c ≤ 'F' then some (c.toNat - 55)
  else none

/-- The character named by four hex digits (a `\u` escape); a surrogate
code unit, unrepresentable as a Lean scalar, decodes to U+FFFD. -/
def hex4Char (a b c d : Char) : Option Char :=
  match hexVal a, hexVal b, hexVal c, hexVal d with
  | some x, some y, some z, some w =>
    let n := ((x * 16 + y) * 16 + z) * 16 + w
    some (if h : n < 0xd800 then Char.ofNatAux n (Or.inl h) else '�')
  | _, _, _, _ => none

/-- The body of a JSON string, after the opening quote; returns the decoded
content and the input after the closing quote.  Unescaped control
characters are rejected, as `JSON.parse` does.  A `\u` escape naming a
surrogate code unit (unrepresentable as a Lean scalar) decodes to U+FFFD. -/
def parseStringBody : JStr → Option (JStr × JStr)
  | [] => none
  | '"' :: rest => some ([], rest)
  | '\\' :: rest =>
    match rest with
    | '"' :: r => (parseStringBody r).map (fun p => ('"' :: p.1, p.2))
    | '\\' :: r => (parseStringBody r).map (fun p => ('\\' :: p.1, p.2))
    | '/' :: r => (parseStringBody r).map (fun p => ('/' :: p.1, p.2))
    | 'b' :: r => (parseStringBody r).map (fun p => ('\x08' :: p.1, p.2))
    | 'f' :: r => (parseStringBody r).map (fun p => ('\x0c' :: p.1, p.2))
    | 'n' :: r => (parseStringBody r).map (fun p => ('\n' :: p.1, p.2))
    | 'r' :: r => (parseStringBody r).map (fun p => ('\x0d' :: p.1, p.2))
    | 't' :: r => (parseStringBody r).map (fun p => ('\t' :: p.1, p.2))
    | 'u' :: a :: b :: c :: d :: r' =>
      match hex4Char a b c d with
      | some ch => (parseStringBody r').map (fun p => (ch :: p.1, p.2))
      | none => none
    | _ => none
  | c :: rest =>
    if c.toNat < 32 then none
    else (parseStringBody rest).map (fun p => (c :: p.1, p.2))

/-- `0 | [1-9][0-9]*`. -/
def parseIntPart : JStr → Option (JStr × JStr)
  | [] => none
  | c :: rest =>
    if c = '0' then some (['0'], rest)
    else if '1' ≤ c ∧ c ≤ '9' then
      some (c :: rest.takeWhile isDigitChar, rest.dropWhile isDigitChar)
    else none

/-- `('.' [0-9]+)?`. -/
def parseFracPart (s : JStr) : Option (JStr × JStr) :=
  match s with
  | '.' :: rest =>
    let ds := rest.takeWhile isDigitChar
    if ds.isEmpty then none else some ('.' :: ds, rest.dropWhile isDigitChar)
  | _ => some ([], s)

/-- `([eE] [+-]? [0-9]+)?`. -/
def parseExpPart (s : JStr) : Option (JStr × JStr) :=
  match s with
  | c :: rest =>
    if c = 'e' ∨ c = 'E' then
      let (sgn, rest') :=
        match rest with
        | d :: r => if d = '+' ∨ d = '-' then ([d], r) else (([] : JStr), rest)
        | [] => ([], rest)
      let ds := rest'.takeWhile isDigitChar
      if ds.isEmpty then none else some (c :: sgn ++ ds, rest'.dropWhile isDigitChar)
    else some ([], s)
  | [] => some ([], s)

/-- A JSON number lexeme. -/
def parseNumberLexeme (s : JStr) : Option (JStr × JStr) :=
  let (neg, s₁) :=
    match s with
    | '-' :: r => (['-'], r)
    | _ => (([] : JStr), s)
  match parseIntPart s₁ with
  | none => none
  | some (ip, s₂) =>
    match parseFracPart s₂ with
    | none => none
    | some (fp, s₃) =>
      match parseExpPart s₃ with
      | none => none
      | some (ep, s₄) => some (neg ++ ip ++ fp ++ ep, s₄)

mutual

/-- One JSON value (leading whitespace allowed), fuel-indexed. -/
def parseVal : Nat → JStr → Option (Json × JStr)
  | 0, _ => none
  | Nat.succ fuel, s =>
    match skipWs s with
    | 'n' :: 'u' :: 'l' :: 'l' :: r => some (Json.null, r)
    | 't' :: 'r' :: 'u' :: 'e' :: r => some (Json.bool true, r)
    | 'f' :: 'a' :: 'l' :: 's' :: 'e' :: r => some (Json.bool false, r)
    | '"' :: r => (parseStringBody r).map (fun p => (Json.str p.1, p.2))
    | '[' :: r =>
      (match skipWs r with
       | ']' :: r' => some (Json.arr [], r')
       | _ => (parseElems fuel r).map (fun p => (Json.arr p.1, p.2)))
    | '{' :: r =>
      (match skipWs r with
       | '}' :: r' => some (Json.obj [], r')
       | _ =>
         (parseFields fuel r).map
           (fun p => (Json.obj (p.1.foldl (fun acc q => objInsert q.1 q.2 acc) []), p.2)))
    | s' => (parseNumberLexeme s').map (fun p => (Json.num p.1, p.2))

/-- Array elements up to and including the closing `]`. -/
def parseElems : Nat → JStr → Option (List Json × JStr)
  | 0, _ => none
  | Nat.succ fuel, s =>
    match parseVal fuel s with
    | none => none
    | some (v, r) =>
      match skipWs r with
      | ',' :: r' => (parseElems fuel r').map (fun p => (v :: p.1, p.2))
      | ']' :: r' => some ([v], r')
      | _ => none

/-- Object members up to and including the closing `}`, in source order. -/
def parseFields : Nat → JStr → Option (List (JStr × Json) × JStr)
  | 0, _ => none
  | Nat.succ fuel, s =>
    match skipWs s with
    | '"' :: r =>
      match parseStringBody r with
      | none => none
      | some (k, r₁) =>
        match skipWs r₁ with
        | ':' :: r₂ =>
          match parseVal fuel r₂ with
          | none => none
          | some (v, r₃) =>
            match skipWs r₃ with
            | ',' :: r₄ => (parseFields fuel r₄).map (fun p => ((k, v) :: p.1, p.2))
            | '}' :: r₄ => some ([(k, v)], r₄)
            | _ => none
        | _ => none
    | _ => none

end

/-- `JSON.parse`: a whole input parses to a single value surrounded only by
whitespace.  The fuel bound `2 * length + 4` exceeds the recursion depth of
any input (each two fuel steps consume at least one character). -/
def jsonParse (s : JStr) : Option Json :=
  match parseVal (2 * s.length + 4) s with
  | some (v, r) => if (skipWs r).isEmpty then some v else none
  | none => none

/-! ### Property names and string literals used by the embedded code -/

def keyType : JStr := ("type").data
def keyFile : JStr := ("file").data
def keyContent : JStr := ("content").data
def keyTool : JStr := ("tool").data
def keyTarget : JStr := ("target").data
def keyUnderstanding : JStr := ("understanding").data
def keyChanges : JStr := ("changes").data
def keyReasoning : JStr := ("reasoning").data
def keyLength : JStr := ("length").data
def keyError : JStr := ("error").data
def keyRaw : JStr := ("raw").data

def kwCreate : JStr := ("create").data
def kwUpdate : JStr := ("update").data
def kwDelete : JStr := ("delete").data
def kwTree : JStr := ("tree").data
def kwCat : JStr := ("cat").data
def kwSearch : JStr := ("search").data
def kwLocate : JStr := ("locate").data

/-! ### Workspace Store (`RefactAgent.workspaces` entries) -/

/-- A workspace, as stored in `agent.workspaces`: `{id, owner, repo, files}`
with `files` a plain object mapping path → content.  Insertion order of the
field list models JavaScript object key order; contents are string values
in every workspace the server builds, but `applyPatch` can store whatever
the parsed `change.content` is, hence `Json`. -/
structure Workspace where
  id : JStr
  owner : JStr
  repo : JStr
  files : List (JStr × Json)

/-- One entry of `searchCodebase`'s result list.  The source field name
`matches` is a Lean keyword, hence `matchLines`. -/
structure SearchHit where
  file : JStr
  matchLines : List JStr
deriving DecidableEq

/-- One entry of `locateFiles`'s result list. -/
structure LocateHit where
  file : JStr
  relevance : ℚ
deriving DecidableEq

/-- The loop body of `RefactAgent.searchCodebase` (`server.js` 613-623):
`content.toLowerCase()` (and then `query.toLowerCase()`) throw a
`TypeError` on non-string values, modelled by `Except.error`. -/
def searchStep (query : Json) (acc : List SearchHit) (pv : JStr × Json) :
    Except JStr (List SearchHit) :=
  match pv.2 with
  | Json.str content =>
    match query with
    | Json.str q =>
      if includesJ (toLowerJ content) (toLowerJ q) then
        Except.ok (acc ++
          [⟨pv.1, (splitOnChar '\n' content).filter
              (fun line => includesJ (toLowerJ line) (toLowerJ q))⟩])
      else Except.ok acc
    | _ => Except.error (("query.toLowerCase is not a function").data)
  | _ => Except.error (("content.toLowerCase is not a function").data)

/-- `RefactAgent.searchCodebase(query, projectId)` (`server.js` 607-625).
A missing workspace yields `[]` before the query is ever inspected. -/
def searchCodebase (query : Json) (ws? : Option Workspace) :
    Except JStr (List SearchHit) :=
  match ws? with
  | none => Except.ok []
  | some ws => ws.files.foldlM (searchStep query) []

/-- The nested file-tree object `getFileTree` builds. -/
inductive FileTree where
  | node : List (JStr × FileTree) → FileTree

def FileTree.children : FileTree → List (JStr × FileTree)
  | node cs => cs

/-- One path's segments inserted into the tree (`if (!current[part])
current[part] = {}; current = current[part]`). -/
def treeInsert : FileTree → List JStr → FileTree
  | t, [] => t
  | FileTree.node cs, p :: ps =>
    match cs.find? (fun q => q.1 = p) with
    | some q =>
      FileTree.node (cs.map (fun q' => if q'.1 = p then (p, treeInsert q.2 ps) else q'))
    | none => FileTree.node (cs ++ [(p, treeInsert (FileTree.node []) ps)])

/-- `RefactAgent.getFileTree(projectId)` (`server.js` 627-643). -/
def getFileTree (ws? : Option Workspace) : FileTree :=
  match ws? with
  | none => FileTree.node []
  | some ws =>
    ws.files.foldl (fun t pv => treeInsert t (splitOnChar '/' pv.1)) (FileTree.node [])

/-- `RefactAgent.readFiles(files, projectId)` (`server.js` 645-656).  Note
the truthiness test `if (workspace.files[file])`: a missing path, and also a
present path with falsy content, is silently omitted. -/
def readFiles (files : List JStr) (ws? : Option Workspace) : List (JStr × Json) :=
  match ws? with
  | none => []
  | some ws =>
    files.foldl
      (fun acc f =>
        if truthy (fieldsGet ws.files f) then objInsert f (fieldsGet ws.files f) acc
        else acc)
      []

/-- Stable descending insertion: the JavaScript
`sort((a, b) => b.relevance - a.relevance)` (a stable sort in Node). -/
def insertByRelevance (x : LocateHit) : List LocateHit → List LocateHit
  | [] => [x]
  | y :: ys => if x.relevance > y.relevance then x :: y :: ys else y :: insertByRelevance x ys

def sortByRelevance (l : List LocateHit) : List LocateHit :=
  l.foldl (fun acc x => insertByRelevance x acc) []

/-- `RefactAgent.locateFiles(taskDescription, projectId)` (`server.js`
658-678).  `taskDescription.toLowerCase()` is evaluated inside the per-file
loop, so a missing or empty workspace never inspects the task. -/
def locateFiles (task : Json) (ws? : Option Workspace) :
    Except JStr (List LocateHit) :=
  match ws? with
  | none => Except.ok []
  | some ws => do
    let hits ← (ws.files.map Prod.fst).foldlM
      (fun acc file =>
        match task with
        | Json.str t =>
          if includesJ (toLowerJ t) (("component").data) ∧
              includesJ file (("component").data) then
            Except.ok (acc ++ [⟨file, 0.9⟩])
          else if includesJ (toLowerJ t) (("style").data) ∧
              includesJ file ((".css").data) then
            Except.ok (acc ++ [⟨file, 0.8⟩])
          else if includesJ file ((".js").data) ∨ includesJ file ((".jsx").data) ∨
              includesJ file ((".ts").data) then
            Except.ok (acc ++ [⟨file, 0.5⟩])
          else Except.ok acc
        | _ => Except.error (("taskDescription.toLowerCase is not a function").data))
      []
    Except.ok (sortByRelevance hits)

/-! ### `applyPatch` — workspace mutation and Remote Sync -/

/-- JavaScript `ToPropertyKey` for the values used as `workspace.files`
keys (`change.file`). -/
def jsToKey (v : Json) : JStr := jsToString v

/-- The workspace-mutation half of `RefactAgent.applyPatch` (`server.js`
684-691): one `change` applied to the `files` object. -/
def applyChangeToFiles (files : List (JStr × Json)) (change : Json) :
    List (JStr × Json) :=
  if jsEqStr (jsGet change keyType) kwCreate ∨ jsEqStr (jsGet change keyType) kwUpdate then
    objInsert (jsToKey (jsGet change keyFile)) (jsGet change keyContent) files
  else if jsEqStr (jsGet change keyType) kwDelete then
    objRemove (jsToKey (jsGet change keyFile)) files
  else files

/-- A workspace after one edit of `applyPatch`'s mutation loop. -/
def wsApplyEdit (ws : Workspace) (change : Json) : Workspace :=
  { ws with files := applyChangeToFiles ws.files change }

/-- One recorded call to `octokit.repos.createOrUpdateFileContents`
(`server.js` 699-705).  `content` is the string handed to `Buffer.from`;
the code base64-encodes it on the wire (the encoding of `''` is `''`). -/
structure RemoteCall where
  owner : JStr
  repo : JStr
  path : JStr
  message : JStr
  content : JStr
deriving DecidableEq

/-- The string `Buffer.from(change.content || '')` encodes: falsy content
falls back to `''`; truthy non-string content (a number or plain object)
makes `Buffer.from` throw inside the per-file `try`, so no call is
attempted for that change — modelled as `none`. -/
def wireContent (v : Json) : Option JStr :=
  if truthy v then
    match v with
    | Json.str s => some s
    | _ => none
  else some []

/-- The call `applyPatch` makes for one change. -/
def remoteCallOf (ws : Workspace) (change : Json) (body : JStr) : RemoteCall :=
  { owner := ws.owner
    repo := ws.repo
    path := jsToKey (jsGet change keyFile)
    message := ("Agent: ").data ++ jsToString (jsGet change keyType) ++
      [' '] ++ jsToKey (jsGet change keyFile)
    content := body }

/-- The commit loop of `applyPatch` (`server.js` 693-712): one sequential
`createOrUpdateFileContents` call per change, in list order.  The stub
`oc` maps the index of an attempted call to `some sha` (success) or `none`
(the call rejects; the `catch` logs and continues without pushing).
Returns the attempted calls and the accumulated `commits` array. -/
def runRemote (oc : Nat → Option JStr) (ws : Workspace) :
    Nat → List Json → List RemoteCall × List JStr
  | _, [] => ([], [])
  | k, c :: cs =>
    match wireContent (jsGet c keyContent) with
    | none => runRemote oc ws k cs
    | some body =>
      let rest := runRemote oc ws (k + 1) cs
      match oc k with
      | some sha => (remoteCallOf ws c body :: rest.1, sha :: rest.2)
      | none => (remoteCallOf ws c body :: rest.1, rest.2)

/-- `RefactAgent.applyPatch(changes, projectId, githubToken)` (`server.js`
680-713): throws `Workspace not found` when the project has no workspace,
otherwise applies every change to the in-memory files and then mirrors the
change list.  Yields the new workspace, the attempted remote calls, and the
returned `commits` array. -/
def applyPatch (oc : Nat → Option JStr) (changes : List Json)
    (ws? : Option Workspace) :
    Except JStr (Workspace × List RemoteCall × List JStr) :=
  match ws? with
  | none => Except.error (("Workspace not found").data)
  | some ws =>
    let files' := changes.foldl applyChangeToFiles ws.files
    let r := runRemote oc ws 0 changes
    Except.ok ({ ws with files := files' }, r.1, r.2)

/-! ### Agent Workflow (`RefactAgent.planTask`, `executeAgentWorkflow`) -/

/-- The Plan-shaped error value `planTask` returns when the LLM's text does
not parse (`server.js` 737): `{error: "Failed to parse plan", raw: content}`. -/
def planFailObj (raw : JStr) : Json :=
  Json.obj [(keyError, Json.str (("Failed to parse plan").data)), (keyRaw, Json.str raw)]

/-- `RefactAgent.planTask` applied to the LLM's response text (`server.js`
733-738): `JSON.parse` of the content, or the error-shaped plan. -/
def planTask (content : JStr) : Json :=
  match jsonParse content with
  | some j => j
  | none => planFailObj content

/-- The `context` object accumulated by the understanding phase
(`server.js` 834-852): up to four keys, each overwritten by the latest
step that used the corresponding tool. -/
structure Context where
  fileTree : Option FileTree
  files : Option (List (JStr × Json))
  searchResults : Option (List SearchHit)
  relevantFiles : Option (List LocateHit)

def emptyCtx : Context :=
  { fileTree := none, files := none, searchResults := none, relevantFiles := none }

/-- Is a step's `tool` one of the four the `switch` dispatches? -/
def dispatchable (tool : Json) : Bool :=
  jsEqStr tool kwTree || jsEqStr tool kwCat || jsEqStr tool kwSearch || jsEqStr tool kwLocate

/-- One iteration of the understanding loop (`server.js` 836-851):
`switch (step.tool)` with cases `tree | cat | search | locate`; any other
tool value falls through the switch and leaves the context untouched.
`step.target.split(',')` and the tools' `toLowerCase()` calls can throw
(`Except.error`), which nothing in `executeAgentWorkflow` catches. -/
def gatherStep (ws? : Option Workspace) (ctx : Context) (step : Json) :
    Except JStr Context :=
  if jsEqStr (jsGet step keyTool) kwTree then
    Except.ok { ctx with fileTree := some (getFileTree ws?) }
  else if jsEqStr (jsGet step keyTool) kwCat then
    match jsGet step keyTarget with
    | Json.str t => Except.ok { ctx with files := some (readFiles (splitOnChar ',' t) ws?) }
    | _ => Except.error (("step.target.split is not a function").data)
  else if jsEqStr (jsGet step keyTool) kwSearch then do
    let r ← searchCodebase (jsGet step keyTarget) ws?
    Except.ok { ctx with searchResults := some r }
  else if jsEqStr (jsGet step keyTool) kwLocate then do
    let r ← locateFiles (jsGet step keyTarget) ws?
    Except.ok { ctx with relevantFiles := some r }
  else Except.ok ctx

/-- What `for (const step of v)` iterates: an array's elements, or a
string's characters as one-character strings; other values are not
iterable and make the loop throw. -/
def iterableOf : Json → Option (List Json)
  | Json.arr xs => some xs
  | Json.str s => some (s.map (fun c => Json.str [c]))
  | _ => none

/-- The understanding phase (`server.js` 833-852): runs only when
`plan.understanding` is truthy. -/
def gatherPhase (ws? : Option Workspace) (plan : Json) : Except JStr Context :=
  let u := jsGet plan keyUnderstanding
  if truthy u then
    match iterableOf u with
    | some steps => steps.foldlM (gatherStep ws?) emptyCtx
    | none => Except.error (("plan.understanding is not iterable").data)
  else Except.ok emptyCtx

/-- A JSON number lexeme denoting a value `> 0`: no leading minus and some
nonzero digit. -/
def numLexemePos (lex : JStr) : Bool :=
  (match lex with
   | '-' :: _ => false
   | _ => true) && lex.any (fun c => '1' ≤ c ∧ c ≤ '9')

/-- `v.length > 0` as the code evaluates it on `result.changes`: array and
string lengths are intrinsic; a plain object's own `length` property is
consulted (a numeric lexeme or an all-digit string coerces; `undefined`
compares false).  -/
def jsLengthGtZero (v : Json) : Bool :=
  match v with
  | Json.arr xs => decide (0 < xs.length)
  | Json.str s => decide (0 < s.length)
  | Json.obj _ =>
    (match jsGet v keyLength with
     | Json.num lex => numLexemePos lex
     | Json.str s => (¬ s.isEmpty) && s.all isDigitChar && s.any (fun c => '1' ≤ c ∧ c ≤ '9')
     | Json.bool b => b
     | _ => false)
  | _ => false

/-- The value the workflow returns (`server.js` 883-894): the success
object, the `No changes generated` object (carrying the response text), or
the `Failed to parse agent response` object (carrying the raw text). -/
inductive AgentResult where
  | ok : Json → Json → List JStr → Json → AgentResult
  | noChanges : JStr → AgentResult
  | parseFailed : JStr → AgentResult

/-- `success` field of the returned object. -/
def AgentResult.success : AgentResult → Bool
  | AgentResult.ok _ _ _ _ => true
  | _ => false

/-- `error` field of the returned object (`undefined` on success). -/
def AgentResult.errorField : AgentResult → Json
  | AgentResult.ok _ _ _ _ => Json.undef
  | AgentResult.noChanges _ => Json.str (("No changes generated").data)
  | AgentResult.parseFailed _ => Json.str (("Failed to parse agent response").data)

/-- `raw` field of the returned object. -/
def AgentResult.rawField : AgentResult → Json
  | AgentResult.parseFailed raw => Json.str raw
  | _ => Json.undef

/-- The execution phase (`server.js` 875-895).  The `try` wraps the
`JSON.parse`, the `changes` test and the `applyPatch` call, so a throw
from `applyPatch` (missing workspace) or from iterating a non-iterable
`changes` value is caught and reported as `Failed to parse agent
response` with the raw response text.  Returns the result object, the
workspace store entry afterwards, and the attempted remote calls. -/
def executePhase (oc : Nat → Option JStr) (ws? : Option Workspace)
    (plan : Json) (content : JStr) :
    AgentResult × Option Workspace × List RemoteCall :=
  match jsonParse content with
  | none => (AgentResult.parseFailed content, ws?, [])
  | some r =>
    if truthy (jsGet r keyChanges) && jsLengthGtZero (jsGet r keyChanges) then
      match iterableOf (jsGet r keyChanges) with
      | none => (AgentResult.parseFailed content, ws?, [])
      | some cs =>
        match applyPatch oc cs ws? with
        | Except.error _ => (AgentResult.parseFailed content, ws?, [])
        | Except.ok (ws', calls, shas) =>
          (AgentResult.ok (jsGet r keyChanges) (jsGet r keyReasoning) shas plan,
           some ws', calls)
    else (AgentResult.noChanges content, ws?, [])

/-- The prompts `executeAgentWorkflow` sends, by their ingredients: the
planning-prompt template embeds the task (`server.js` 717-731), the
execution-prompt template embeds the task, the (stringified) plan and the
gathered context (`server.js` 855-873). -/
inductive Prompt where
  | planning : JStr → Prompt
  | execution : JStr → Json → Context → Prompt

/-- A completed run of `RefactAgent.executeAgentWorkflow(taskDescription,
projectId, githubToken)` (`server.js` 828-896), observed as a trace. -/
structure WorkflowTrace where
  result : AgentResult
  workspace : Option Workspace
  prompts : List Prompt
  remoteCalls : List RemoteCall

/-- `executeAgentWorkflow`, with the two collaborators as stubs: `llm k`
is the content of the gateway's response to the k-th LLM call of the run,
`oc k` the outcome of the k-th attempted `createOrUpdateFileContents`
call.  An uncaught throw (only possible in the understanding phase) is
`Except.error`, propagating to the route handler. -/
def executeAgentWorkflow (llm : Nat → JStr) (oc : Nat → Option JStr)
    (ws? : Option Workspace) (task : JStr) : Except JStr WorkflowTrace := do
  let plan := planTask (llm 0)
  let ctx ← gatherPhase ws? plan
  let out := executePhase oc ws? plan (llm 1)
  Except.ok
    { result := out.1
      workspace := out.2.1
      prompts := [Prompt.planning task, Prompt.execution task plan ctx]
      remoteCalls := out.2.2 }

/-! ### The chat endpoint's intent classifier (first revision,
`server.js` 425-439 and 234-308) -/

/-- The three intent values `analyzeUserIntent` can produce. -/
inductive Intent where
  | approve : Intent
  | modify : Intent
  | general : Intent
deriving DecidableEq

def approveKeywords : List JStr :=
  [("commit").data, ("approve").data, ("looks good").data,
   ("perfect").data, ("deploy").data, ("push").data]

def modifyKeywords : List JStr :=
  [("change").data, ("modify").data, ("update").data,
   ("make it").data, ("add").data, ("remove").data]

/-- `analyzeUserIntent(message)` (`server.js` 425-439): lowercase the
message, then an `||`-chain of `includes` tests. -/
def analyzeUserIntent (message : JStr) : Intent :=
  let msg := toLowerJ message
  if approveKeywords.any (fun kw => includesJ msg kw) then Intent.approve
  else if modifyKeywords.any (fun kw => includesJ msg kw) then Intent.modify
  else Intent.general

/-- Where the chat endpoint's `if`/`else if`/`else` on `intent.type`
routes (`server.js` 238-308). -/
inductive ChatAction where
  | commitStep : ChatAction
  | modificationCall : ChatAction
  | conversationCall : ChatAction
deriving DecidableEq

/-- `approve` commits the pending code; `modify` builds a modification
prompt and calls the LLM; everything else is a conversational LLM call. -/
def chatRoute : Intent → ChatAction
  | Intent.approve => ChatAction.commitStep
  | Intent.modify => ChatAction.modificationCall
  | Intent.general => ChatAction.conversationCall

/-! ### Spec-side definitions used to state the claims -/

/-- The matching lines of one file content for a query, as `searchCodebase`
computes them: case-insensitive per-line containment. -/
def matchingLines (q c : JStr) : List JStr :=
  (splitOnChar '\n' c).filter (fun line => includesJ (toLowerJ line) (toLowerJ q))

/-- The spec's description of one search-result entry (`spec.md` §4.2):
an entry exactly for a file with at least one matching line, carrying
every matching line verbatim.  Stated from the spec's words, to be
compared with `searchCodebase`. -/
def specSearchEntry (q : JStr) (pv : JStr × Json) : Option SearchHit :=
  match pv.2 with
  | Json.str c => if (matchingLines q c).isEmpty then none else some ⟨pv.1, matchingLines q c⟩
  | _ => none

/-- The spec's Edit record (`spec.md` §3): `{kind: create|update|delete,
path, content?}` — string path, string content for create/update, no
content for delete.  Claims quantifying over "edit lists" range over
values of this shape. -/
def specEdit (c : Json) : Bool :=
  ((jsEqStr (jsGet c keyType) kwCreate || jsEqStr (jsGet c keyType) kwUpdate)
    && (match jsGet c keyFile, jsGet c keyContent with
        | Json.str _, Json.str _ => true
        | _, _ => false))
  || (jsEqStr (jsGet c keyType) kwDelete
    && (match jsGet c keyFile, jsGet c keyContent with
        | Json.str _, Json.undef => true
        | _, _ => false))

/-- The body string an attempted mirror sends for a change (defined when
`Buffer.from` accepts `change.content || ''`). -/
def wireBody (c : Json) : JStr := (wireContent (jsGet c keyContent)).getD []

/-! ### Concrete fixtures for witnesses and counterexamples -/

def wsEmpty : Workspace := ⟨("p1").data, ("me").data, ("repo").data, []⟩

/-- Stub: planning response is not JSON, execution response is a valid
one-change edit set. -/
def c1Llm : Nat → JStr := fun n =>
  if n = 0 then ("not json").data
  else ("\x7b\"changes\":[\x7b\"type\":\"create\",\"file\":\"a.js\",\"content\":\"x\"\x7d],\"reasoning\":\"r\"\x7d").data

/-- Stub: neither response is JSON. -/
def c1LlmBoth : Nat → JStr := fun _ => ("oops").data

def ocAlways : Nat → Option JStr := fun _ => some (("sha0").data)

def c2Changes : List Json :=
  [Json.obj [(keyType, Json.str kwCreate), (keyFile, Json.str (("a.js").data)),
     (keyContent, Json.str (("x").data))],
   Json.obj [(keyType, Json.str kwCreate), (keyFile, Json.str (("b.js").data)),
     (keyContent, Json.str (("y").data))]]

/-- Remote stub: the first attempted call fails, the second succeeds. -/
def c2Oc : Nat → Option JStr := fun k => if k = 0 then none else some (("sha1").data)

def c3Ws : Workspace :=
  ⟨("p").data, ("o").data, ("r").data, [(("kept.js").data, Json.str (("k").data))]⟩

def c3Create : Json :=
  Json.obj [(keyType, Json.str kwCreate), (keyFile, Json.str (("a.js").data)),
    (keyContent, Json.str (("hi").data))]

def c3Delete : Json :=
  Json.obj [(keyType, Json.str kwDelete), (keyFile, Json.str (("gone.js").data))]

def c4HelloWs : Workspace :=
  ⟨("p").data, ("o").data, ("r").data,
   [(("a.js").data, Json.str (("console.log(\"hello world\")\nsay hello again").data))]⟩

def c4NlWs : Workspace :=
  ⟨("p").data, ("o").data, ("r").data, [(("f.txt").data, Json.str (("a\nb").data))]⟩

def c5Changes : List Json :=
  [Json.obj [(keyType, Json.str kwUpdate), (keyFile, Json.str (("u.js").data)),
     (keyContent, Json.str (("body").data))],
   Json.obj [(keyType, Json.str kwDelete), (keyFile, Json.str (("dead.js").data))]]

/-- Remote stub: the first attempted call succeeds, the second fails. -/
def c5Oc : Nat → Option JStr := fun k => if k = 0 then some (("shaA").data) else none

def c7Ws : Workspace :=
  ⟨("p").data, ("o").data, ("r").data,
   [(("src/components/Hero.js").data, Json.str []),
    (("src/index.css").data, Json.str [])]⟩

def c8Step : Json :=
  Json.obj [(keyTool, Json.str (("web").data)), (keyTarget, Json.str (("http://x").data))]

def c9Ws : Workspace :=
  ⟨("p").data, ("o").data, ("r").data, [(("old.js").data, Json.str (("z").data))]⟩

def c9Changes : List Json :=
  [Json.obj [(keyType, Json.str kwDelete), (keyFile, Json.str (("old.js").data))]]

/-- Stub: the plan parses to `{}`, the execution response parses but has
no `changes` field. -/
def c10Llm : Nat → JStr := fun n =>
  if n = 0 then ("\x7b\x7d").data else ("\x7b\"reasoning\":\"n\"\x7d").data

/-! ## Helper lemmas -/

theorem includesJ_iff {hay needle : JStr} : includesJ hay needle = true ↔ needle <:+: hay := by
  induction hay with
  | nil => simp [includesJ, List.isEmpty_iff]
  | cons c t ih =>
    simp only [includesJ, Bool.or_eq_true, List.isPrefixOf_iff_prefix, ih,
      List.infix_cons_iff]

theorem splitOnChar_ne_nil (sep : Char) (xs : JStr) : splitOnChar sep xs ≠ [] := by
  induction xs with
  | nil => simp [splitOnChar]
  | cons c cs ih =>
    simp only [splitOnChar]
    split
    · simp
    · split
      · simp
      · simp

theorem joinSep_splitOnChar (sep : Char) (xs : JStr) :
    joinSep sep (splitOnChar sep xs) = xs := by
  induction xs with
  | nil => rfl
  | cons c cs ih =>
    simp only [splitOnChar]
    obtain ⟨p, ps, hps⟩ := List.exists_cons_of_ne_nil (splitOnChar_ne_nil sep cs)
    rw [hps] at ih ⊢
    by_cases h : c = sep
    · rw [if_pos h]
      show ([] : JStr) ++ sep :: joinSep sep (p :: ps) = c :: cs
      rw [List.nil_append, ih, h]
    · rw [if_neg h]
      cases ps with
      | nil => show c :: p = c :: cs; rw [show p = cs from ih]
      | cons q ps' =>
        show (c :: p) ++ sep :: joinSep sep (q :: ps') = c :: cs
        rw [List.cons_append, ← ih]
        rfl

/-- A needle avoiding `sep`, infix of `p ++ sep :: rest`, lies wholly in
`p` or wholly in `rest`. -/
theorem infix_of_append_cons {n p rest : JStr} {sep : Char} (hsep : sep ∉ n)
    (h : n <:+: p ++ sep :: rest) : n <:+: p ∨ n <:+: rest := by
  obtain ⟨s, t, hst⟩ := h
  have hst' : s ++ (n ++ t) = p ++ sep :: rest := by
    rw [← List.append_assoc]
    exact hst
  by_cases hc1 : s.length + n.length ≤ p.length
  · left
    have hsp : s.length ≤ p.length := by omega
    have h1 : (s ++ (n ++ t)).take p.length = p := by
      rw [hst', List.take_left' rfl]
    rw [List.take_append_eq_append_take, List.take_of_length_le hsp,
      List.take_append_eq_append_take, List.take_of_length_le (by omega)] at h1
    exact ⟨s, t.take (p.length - s.length - n.length), by
      rw [List.append_assoc]
      exact h1⟩
  · by_cases hc2 : p.length + 1 ≤ s.length
    · right
      have h1 : (s ++ (n ++ t)).drop (p.length + 1) = rest := by
        rw [hst', List.drop_append_eq_append_drop,
          List.drop_eq_nil_of_le (by omega), List.nil_append,
          show p.length + 1 - p.length = 1 by omega, List.drop_succ_cons, List.drop_zero]
      rw [List.drop_append_eq_append_drop,
        show p.length + 1 - s.length = 0 by omega, List.drop_zero] at h1
      exact ⟨s.drop (p.length + 1), t, by
        rw [List.append_assoc]
        exact h1⟩
    · exfalso
      have hs : s.length ≤ p.length := by omega
      have hA : (p.drop s.length).length < n.length := by
        simp
        omega
      have hdrop : n ++ t = p.drop s.length ++ sep :: rest := by
        have := congrArg (List.drop s.length) hst'
        rwa [List.drop_left, List.drop_append_eq_append_drop,
          show s.length - p.length = 0 by omega, List.drop_zero] at this
      have hself : n = (p.drop s.length ++ sep :: rest).take n.length := by
        rw [← hdrop, List.take_left' rfl]
      rw [List.take_append_eq_append_take,
        List.take_of_length_le (Nat.le_of_lt hA)] at hself
      have hone : n.length - (p.drop s.length).length =
          (n.length - (p.drop s.length).length - 1) + 1 := by omega
      rw [hone, List.take_succ_cons] at hself
      exact hsep (by
        rw [hself]
        simp)

/-- For a needle avoiding the separator, being an infix of the join is
being an infix of one of the parts. -/
theorem infix_joinSep {sep : Char} {n : JStr} (hsep : sep ∉ n) :
    ∀ parts : List JStr, parts ≠ [] →
      (n <:+: joinSep sep parts ↔ ∃ l ∈ parts, n <:+: l) := by
  intro parts
  induction parts with
  | nil => intro h; exact absurd rfl h
  | cons p ps ih =>
    intro _
    cases ps with
    | nil =>
      constructor
      · intro h; exact ⟨p, by simp, h⟩
      · rintro ⟨l, hl, h⟩
        simp at hl
        subst hl
        exact h
    | cons q ps' =>
      show n <:+: p ++ sep :: joinSep sep (q :: ps') ↔ _
      constructor
      · intro h
        rcases infix_of_append_cons hsep h with h' | h'
        · exact ⟨p, by simp, h'⟩
        · obtain ⟨l, hl, hin⟩ := (ih (by simp)).mp h'
          exact ⟨l, by simp [hl], hin⟩
      · rintro ⟨l, hl, hin⟩
        rcases List.mem_cons.mp hl with hl' | hl'
        · subst hl'
          exact hin.trans (List.prefix_append l _).isInfix
        · have h1 : n <:+: joinSep sep (q :: ps') := (ih (by simp)).mpr ⟨l, hl', hin⟩
          have h2 : joinSep sep (q :: ps') <:+ p ++ sep :: joinSep sep (q :: ps') :=
            (List.suffix_cons sep _).trans (List.suffix_append p _)
          exact h1.trans h2.isInfix

/-- `splitOnChar` commutes with mapping a function that neither creates
nor destroys the separator. -/
theorem splitOnChar_map {f : Char → Char} {sep : Char}
    (hf : ∀ c, f c = sep ↔ c = sep) (xs : JStr) :
    splitOnChar sep (xs.map f) = (splitOnChar sep xs).map (List.map f) := by
  induction xs with
  | nil => rfl
  | cons c cs ih =>
    simp only [List.map_cons, splitOnChar, ih]
    obtain ⟨p, ps, hps⟩ := List.exists_cons_of_ne_nil (splitOnChar_ne_nil sep cs)
    rw [hps]
    by_cases h : c = sep
    · rw [if_pos ((hf c).mpr h), if_pos h]
      rfl
    · rw [if_neg (fun hc => h ((hf c).mp hc)), if_neg h]
      rfl

theorem jsLowerChar_eq_iff_of_le {c d : Char} (hd : d.toNat < 65) :
    jsLowerChar c = d ↔ c = d := by
  unfold jsLowerChar
  split
  · rename_i h
    constructor
    · intro hc
      exfalso
      have : (Char.ofNatAux (c.toNat + 32) (Or.inl (by omega))).toNat = c.toNat + 32 := rfl
      rw [hc] at this
      omega
    · intro hc
      subst hc
      omega
  · exact Iff.rfl

theorem mem_toLowerJ_of_lt {d : Char} (hd : d.toNat < 65) (s : JStr) :
    d ∈ toLowerJ s ↔ d ∈ s := by
  unfold toLowerJ
  rw [List.mem_map]
  constructor
  · rintro ⟨c, hc, hcd⟩
    rwa [← (jsLowerChar_eq_iff_of_le hd).mp hcd]
  · intro h
    exact ⟨d, h, (jsLowerChar_eq_iff_of_le hd).mpr rfl⟩

/-- A `===`-against-a-literal success pins the value down. -/
theorem jsEqStr_eq {v : Json} {s : JStr} (h : jsEqStr v s = true) : v = Json.str s := by
  cases v with
  | str t =>
    have ht : t = s := by simpa [jsEqStr] using h
    rw [ht]
  | undef => exact absurd h (by simp [jsEqStr])
  | null => exact absurd h (by simp [jsEqStr])
  | bool b => exact absurd h (by simp [jsEqStr])
  | num l => exact absurd h (by simp [jsEqStr])
  | arr xs => exact absurd h (by simp [jsEqStr])
  | obj fs => exact absurd h (by simp [jsEqStr])

/-! ## Object-assignment lemmas (for edit idempotence) -/

theorem objInsert_idem (k : JStr) (v : Json) (fs : List (JStr × Json)) :
    objInsert k v (objInsert k v fs) = objInsert k v fs := by
  by_cases h : fs.any (fun q => q.1 = k) = true
  · have h2 : (fs.map (fun q => if q.1 = k then (k, v) else q)).any
        (fun q => q.1 = k) = true := by
      rw [List.any_map]
      rcases List.any_eq_true.mp h with ⟨q, hq, hqk⟩
      refine List.any_eq_true.mpr ⟨q, hq, ?_⟩
      simp only [Function.comp]
      simp only [decide_eq_true_eq] at hqk
      simp [hqk]
    simp only [objInsert, h, if_true, h2, List.map_map]
    apply List.map_congr_left
    intro q _
    by_cases hq : q.1 = k <;> simp [Function.comp, hq]
  · have hfalse : fs.any (fun q => q.1 = k) = false := by
      exact Bool.eq_false_iff.mpr h
    have hall : ∀ q ∈ fs, ¬ q.1 = k := by
      intro q hq hk
      exact h (List.any_eq_true.mpr ⟨q, hq, by simp [hk]⟩)
    have happ : ((fs ++ [(k, v)]).any (fun q => q.1 = k)) = true := by
      rw [List.any_append]
      simp
    simp only [objInsert, hfalse, Bool.false_eq_true, if_false, happ, if_true,
      List.map_append]
    have h1 : fs.map (fun q => if q.1 = k then (k, v) else q) = fs := by
      have hid : fs.map (fun q => if q.1 = k then (k, v) else q) = fs.map id := by
        apply List.map_congr_left
        intro q hq
        simp [hall q hq]
      rw [hid, List.map_id]
    rw [h1]
    simp

theorem objRemove_of_not_mem {k : JStr} {fs : List (JStr × Json)}
    (h : k ∉ fs.map Prod.fst) : objRemove k fs = fs := by
  apply List.filter_eq_self.mpr
  intro q hq
  simp only [decide_eq_true_eq]
  intro hk
  exact h (List.mem_map.mpr ⟨q, hq, hk⟩)

theorem mem_objRemove_keys {k : JStr} {fs : List (JStr × Json)} :
    k ∉ (objRemove k fs).map Prod.fst := by
  intro h
  obtain ⟨q, hq, hk⟩ := List.mem_map.mp h
  have := List.of_mem_filter hq
  simp [hk] at this

/-! ## Search characterization lemmas -/

/-- For a query without a newline, whole-content containment coincides
with some line matching. -/
theorem content_match_iff {q c : JStr} (hnl : '\n' ∉ q) :
    includesJ (toLowerJ c) (toLowerJ q) = true ↔ ¬ (matchingLines q c).isEmpty := by
  have hnl' : '\n' ∉ toLowerJ q := fun h => hnl ((mem_toLowerJ_of_lt (by decide) q).mp h)
  have hfsep : ∀ c₀ : Char, jsLowerChar c₀ = '\n' ↔ c₀ = '\n' :=
    fun c₀ => jsLowerChar_eq_iff_of_le (by decide)
  have hsplit : splitOnChar '\n' (toLowerJ c) = (splitOnChar '\n' c).map toLowerJ :=
    splitOnChar_map hfsep c
  rw [includesJ_iff]
  conv_lhs => rw [← joinSep_splitOnChar '\n' (toLowerJ c)]
  rw [infix_joinSep hnl' _ (splitOnChar_ne_nil _ _), hsplit]
  unfold matchingLines
  rw [List.isEmpty_iff, List.filter_eq_nil_iff]
  push_neg
  constructor
  · rintro ⟨l, hl, hin⟩
    obtain ⟨l₀, hl₀, rfl⟩ := List.mem_map.mp hl
    exact ⟨l₀, hl₀, by rwa [includesJ_iff]⟩
  · rintro ⟨l₀, hl₀, hin⟩
    rw [includesJ_iff] at hin
    exact ⟨toLowerJ l₀, List.mem_map.mpr ⟨l₀, hl₀, rfl⟩, hin⟩

/-- The search fold, on workspaces whose contents are all strings:
one entry per file whose content contains the query, in file order. -/
theorem searchFold_spec {q : JStr} (hnl : '\n' ∉ q) :
    ∀ (files : List (JStr × Json)) (acc : List SearchHit),
      (∀ pv ∈ files, ∃ s, pv.2 = Json.str s) →
      files.foldlM (searchStep (Json.str q)) acc =
        Except.ok (acc ++ files.filterMap (specSearchEntry q)) := by
  intro files
  induction files with
  | nil =>
    intro acc _
    show pure acc = Except.ok (acc ++ [])
    rw [List.append_nil]
    rfl
  | cons pv rest ih =>
    intro acc hstr
    obtain ⟨s, hs⟩ := hstr pv (by simp)
    have hrest : ∀ pv' ∈ rest, ∃ s', pv'.2 = Json.str s' := by
      intro pv' h'
      exact hstr pv' (by simp [h'])
    rw [List.foldlM_cons]
    by_cases hm : includesJ (toLowerJ s) (toLowerJ q) = true
    · have hne : ¬ (matchingLines q s).isEmpty := (content_match_iff hnl).mp hm
      have hstep : searchStep (Json.str q) acc pv =
          Except.ok (acc ++ [⟨pv.1, matchingLines q s⟩]) := by
        rw [searchStep, hs]
        simp only [hm, if_true]
        rfl
      rw [hstep]
      show rest.foldlM (searchStep (Json.str q)) (acc ++ [⟨pv.1, matchingLines q s⟩]) = _
      rw [ih _ hrest, List.filterMap_cons, specSearchEntry, hs]
      simp only [if_neg hne]
      rw [List.append_assoc]
      rfl
    · have hemp : (matchingLines q s).isEmpty := by
        by_contra hc
        exact hm ((content_match_iff hnl).mpr hc)
      have hstep : searchStep (Json.str q) acc pv = Except.ok acc := by
        rw [searchStep, hs]
        simp [hm]
      rw [hstep]
      show rest.foldlM (searchStep (Json.str q)) acc = _
      rw [ih _ hrest, List.filterMap_cons, specSearchEntry, hs]
      simp only [if_pos hemp]

/-- The files named by search entries form a sublist of the workspace's
keys (so distinct keys give at most one entry per file). -/
theorem searchEntries_files_sublist (q : JStr) (files : List (JStr × Json)) :
    ((files.filterMap (specSearchEntry q)).map SearchHit.file).Sublist
      (files.map Prod.fst) := by
  induction files with
  | nil => simp
  | cons pv rest ih =>
    rw [List.filterMap_cons]
    cases hv : specSearchEntry q pv with
    | none => simp only [List.map_cons]; exact ih.cons _
    | some hit =>
      have hfile : hit.file = pv.1 := by
        rcases pv with ⟨p, v⟩
        unfold specSearchEntry at hv
        cases v <;> simp at hv
        rw [← hv.2]
      simp only [List.map_cons, hfile]
      exact ih.cons₂ _

/-! ## Remote-mirroring lemmas -/

/-- When `Buffer.from` accepts every change's content, `applyPatch`'s
commit loop attempts exactly one call per change, in list order, and
pushes exactly the shas of the successful calls, in order. -/
theorem runRemote_spec (oc : Nat → Option JStr) (ws : Workspace) :
    ∀ (cs : List Json) (k : Nat),
      (∀ c ∈ cs, (wireContent (jsGet c keyContent)).isSome = true) →
      runRemote oc ws k cs =
        (cs.map (fun c => remoteCallOf ws c (wireBody c)),
         (List.range' k cs.length).filterMap oc) := by
  intro cs
  induction cs with
  | nil => intro k _; rfl
  | cons c rest ih =>
    intro k h
    obtain ⟨body, hbody⟩ := Option.isSome_iff_exists.mp (h c (by simp))
    have hrest : ∀ c' ∈ rest, (wireContent (jsGet c' keyContent)).isSome = true := by
      intro c' h'
      exact h c' (by simp [h'])
    rw [runRemote, hbody, ih (k + 1) hrest]
    have hwb : wireBody c = body := by rw [wireBody, hbody]; rfl
    cases hoc : oc k <;>
      simp [List.range'_succ, List.length_cons, List.filterMap_cons, hoc, hwb]

/-- A spec-shaped edit always has an acceptable wire content. -/
theorem specEdit_wire {c : Json} (h : specEdit c = true) :
    (wireContent (jsGet c keyContent)).isSome = true := by
  rw [specEdit, Bool.or_eq_true, Bool.and_eq_true, Bool.and_eq_true] at h
  rcases h with ⟨_, h⟩ | ⟨_, h⟩
  · split at h
    · rename_i hfile hcontent
      rw [hcontent]
      unfold wireContent
      split
      · rfl
      · rfl
    · exact absurd h (by simp)
  · split at h
    · rename_i hfile hcontent
      rw [hcontent]
      rfl
    · exact absurd h (by simp)

/-! ## Claim theorems -/

/-- C3: applying an identical create/update edit twice to a Workspace
yields the same Workspace state as applying it once, and applying a
delete edit for a path not present leaves the Workspace unchanged (and
raises no error: the mutation loop is total). -/
theorem c3_edit_idempotent_and_delete_noop (ws : Workspace) (c : Json) :
    ((jsEqStr (jsGet c keyType) kwCreate = true ∨
        jsEqStr (jsGet c keyType) kwUpdate = true) →
      wsApplyEdit (wsApplyEdit ws c) c = wsApplyEdit ws c) ∧
    (jsEqStr (jsGet c keyType) kwDelete = true →
      jsToKey (jsGet c keyFile) ∉ ws.files.map Prod.fst →
      wsApplyEdit ws c = ws) := by
  constructor
  · intro h
    show Workspace.mk _ _ _ (applyChangeToFiles (applyChangeToFiles ws.files c) c) =
      Workspace.mk _ _ _ (applyChangeToFiles ws.files c)
    have hsel : ∀ fs : List (JStr × Json), applyChangeToFiles fs c =
        objInsert (jsToKey (jsGet c keyFile)) (jsGet c keyContent) fs := by
      intro fs
      rw [applyChangeToFiles, if_pos h]
    rw [hsel, hsel, objInsert_idem]
    rfl
  · intro h hmem
    have hd := jsEqStr_eq h
    show Workspace.mk _ _ _ (applyChangeToFiles ws.files c) = ws
    rw [applyChangeToFiles, hd, if_neg (by decide), if_pos (by decide),
      objRemove_of_not_mem hmem]

/-- C3 witness: a concrete create edit applied twice equals it applied
once, and a concrete delete of an absent path is a no-op. -/
theorem c3_edit_witness :
    wsApplyEdit (wsApplyEdit c3Ws c3Create) c3Create = wsApplyEdit c3Ws c3Create ∧
    wsApplyEdit c3Ws c3Delete = c3Ws :=
  ⟨(c3_edit_idempotent_and_delete_noop c3Ws c3Create).1 (Or.inl (by decide)),
   (c3_edit_idempotent_and_delete_noop c3Ws c3Delete).2 (by decide) (by decide)⟩

/-- C7: on a workspace holding exactly `src/components/Hero.js` and
`src/index.css`, `locateFiles` with task `add a component` scores the Hero
component 0.9 and excludes the stylesheet entirely (so the 0.9 entry is
the whole, trivially descending, result list). -/
theorem c7_locate_ranking :
    locateFiles (Json.str (("add a component").data)) (some c7Ws) =
      Except.ok [⟨("src/components/Hero.js").data, 0.9⟩] := by rfl

/-- C8: a gathering step whose `tool` is not one of the four dispatchable
tools (`tree`, `cat`, `search`, `locate`) is skipped silently: no error,
and the accumulated context record is returned unchanged. -/
theorem c8_unknown_tool_skipped (ws? : Option Workspace) (ctx : Context)
    (step : Json) (h : dispatchable (jsGet step keyTool) = false) :
    gatherStep ws? ctx step = Except.ok ctx := by
  obtain ⟨h1, h2, h3, h4⟩ : jsEqStr (jsGet step keyTool) kwTree = false ∧
      jsEqStr (jsGet step keyTool) kwCat = false ∧
      jsEqStr (jsGet step keyTool) kwSearch = false ∧
      jsEqStr (jsGet step keyTool) kwLocate = false := by
    simpa [dispatchable, and_assoc] using h
  rw [gatherStep, if_neg (by simp [h1]), if_neg (by simp [h2]),
    if_neg (by simp [h3]), if_neg (by simp [h4])]

/-- C8 witness: a step naming the registered but non-dispatchable tool
`web` leaves an empty context untouched. -/
theorem c8_unknown_tool_witness :
    dispatchable (jsGet c8Step keyTool) = false ∧
    gatherStep (some wsEmpty) emptyCtx c8Step = Except.ok emptyCtx :=
  ⟨by decide, c8_unknown_tool_skipped (some wsEmpty) emptyCtx c8Step (by decide)⟩

/-- Helper: shape of a spec delete edit. -/
theorem specEdit_delete_shape {c : Json} (hs : specEdit c = true)
    (hd : jsEqStr (jsGet c keyType) kwDelete = true) :
    (∃ f, jsGet c keyFile = Json.str f) ∧ jsGet c keyContent = Json.undef := by
  rw [specEdit, jsEqStr_eq hd,
    show jsEqStr (Json.str kwDelete) kwCreate = false from by decide,
    show jsEqStr (Json.str kwDelete) kwUpdate = false from by decide,
    show jsEqStr (Json.str kwDelete) kwDelete = true from by decide] at hs
  simp at hs
  split at hs
  · rename_i hf hc
    exact ⟨⟨_, hf⟩, hc⟩
  · exact absurd hs (by simp)

/-- Helper: `applyPatch` on a present workspace and acceptable contents,
in closed form. -/
theorem applyPatch_spec (oc : Nat → Option JStr) (ws : Workspace)
    (changes : List Json) (h : ∀ c ∈ changes, specEdit c = true) :
    applyPatch oc changes (some ws) =
      Except.ok ({ ws with files := changes.foldl applyChangeToFiles ws.files },
        changes.map (fun c => remoteCallOf ws c (wireBody c)),
        (List.range' 0 changes.length).filterMap oc) := by
  show Except.ok (_, (runRemote oc ws 0 changes).1, (runRemote oc ws 0 changes).2) = _
  rw [runRemote_spec oc ws changes 0 (fun c hc => specEdit_wire (h c hc))]

/-- C2 counterexample: a two-edit list whose first mirror fails records
only one commit reference for two attempted mirrors — a reference is not
recorded per attempted mirror independent of success. -/
theorem c2_counterexample :
    (applyPatch c2Oc c2Changes (some wsEmpty)).toOption.map
        (fun t => (t.2.1.length, t.2.2.length)) = some (2, 1) := by rfl

/-- C2 (amended): the Applied phase records one commit reference per
**successful** mirror — exactly the stub's successes, in order; failed
mirrors record nothing, and no mirror failure reaches the error channel
(the result stays `Except.ok`). -/
theorem c2_success_only_refs (oc : Nat → Option JStr) (ws : Workspace)
    (changes : List Json) (h : ∀ c ∈ changes, specEdit c = true) :
    (applyPatch oc changes (some ws)).toOption.map (fun t => t.2.2) =
      some ((List.range' 0 changes.length).filterMap oc) := by
  rw [applyPatch_spec oc ws changes h]
  rfl

/-- C2 witness: on the two-edit fixture with a failing first mirror the
recorded references are exactly the single successful sha. -/
theorem c2_success_only_witness :
    (applyPatch c2Oc c2Changes (some wsEmpty)).toOption.map (fun t => t.2.2) =
      some ((List.range' 0 c2Changes.length).filterMap c2Oc) :=
  c2_success_only_refs c2Oc wsEmpty c2Changes (by decide)

/-- C5: the Applied phase issues exactly one remote commit call per edit,
sequentially, in edit-list order (the call trace is the list's image under
the per-edit call), the in-memory mutations all apply, and the recorded
shas are exactly those of the successful calls — a partial failure rolls
nothing back. -/
theorem c5_one_call_per_edit (oc : Nat → Option JStr) (ws : Workspace)
    (changes : List Json) (h : ∀ c ∈ changes, specEdit c = true) :
    applyPatch oc changes (some ws) =
      Except.ok ({ ws with files := changes.foldl applyChangeToFiles ws.files },
        changes.map (fun c => remoteCallOf ws c (wireBody c)),
        (List.range' 0 changes.length).filterMap oc) :=
  applyPatch_spec oc ws changes h

/-- C5 witness: an update followed by a delete, with the second mirror
failing: two calls in order, both mutations applied, one sha kept. -/
theorem c5_one_call_witness :
    applyPatch c5Oc c5Changes (some wsEmpty) =
      Except.ok ({ wsEmpty with
          files := c5Changes.foldl applyChangeToFiles wsEmpty.files },
        c5Changes.map (fun c => remoteCallOf wsEmpty c (wireBody c)),
        (List.range' 0 c5Changes.length).filterMap c5Oc) :=
  c5_one_call_per_edit c5Oc wsEmpty c5Changes (by decide)

/-- C9: a delete edit in an applied edit list removes its path from the
in-memory workspace, yet the mirroring loop still issues a
create-or-update call for that path with empty content — the path is not
deleted upstream. -/
theorem c9_delete_edit_mirrors_empty_content (oc : Nat → Option JStr)
    (ws : Workspace) (changes : List Json) (i : Nat) (c : Json) (f : JStr)
    (hw : ∀ c' ∈ changes, specEdit c' = true)
    (hi : changes[i]? = some c)
    (hdel : jsEqStr (jsGet c keyType) kwDelete = true)
    (hf : jsGet c keyFile = Json.str f) :
    (applyPatch oc changes (some ws)).toOption.map (fun t => t.2.1[i]?) =
      some (some ⟨ws.owner, ws.repo, f, ("Agent: delete ").data ++ f, []⟩) ∧
    ∀ fs : List (JStr × Json), f ∉ (applyChangeToFiles fs c).map Prod.fst := by
  have hmem : c ∈ changes := by
    obtain ⟨hlt, heq⟩ := List.getElem?_eq_some_iff.mp hi
    exact heq ▸ List.getElem_mem hlt
  have htype := jsEqStr_eq hdel
  obtain ⟨_, hcont⟩ := specEdit_delete_shape (hw c hmem) hdel
  constructor
  · rw [applyPatch_spec oc ws changes hw]
    show some ((changes.map fun c => remoteCallOf ws c (wireBody c))[i]?) = _
    rw [List.getElem?_map, hi, Option.map_some']
    have hcall : remoteCallOf ws c (wireBody c) =
        ⟨ws.owner, ws.repo, f, ("Agent: delete ").data ++ f, []⟩ := by
      rw [remoteCallOf, wireBody, hcont, htype, hf]
      rfl
    show some (some (remoteCallOf ws c (wireBody c))) = _
    rw [hcall]
  · intro fs
    rw [applyChangeToFiles, htype, if_neg (by decide), if_pos (by decide), hf]
    exact mem_objRemove_keys

/-- C9 witness: the single delete edit removes `old.js` from the
workspace files and still mirrors an empty-content create-or-update call
for `old.js`. -/
theorem c9_delete_witness :
    (applyPatch ocAlways c9Changes (some c9Ws)).toOption.map (fun t => t.2.1[0]?) =
      some (some ⟨("o").data, ("r").data, ("old.js").data,
        ("Agent: delete ").data ++ ("old.js").data, []⟩) ∧
    ∀ fs : List (JStr × Json),
      ("old.js").data ∉
        (applyChangeToFiles fs (Json.obj [(keyType, Json.str kwDelete),
          (keyFile, Json.str (("old.js").data))])).map Prod.fst :=
  c9_delete_edit_mirrors_empty_content ocAlways c9Ws c9Changes 0 _ (("old.js").data)
    (by decide) rfl (by decide) rfl

/-- C4 counterexample: for the newline-containing query `"a\nb"` on a
one-file workspace with content `"a\nb"`, the file has **no** matching
line, yet search returns an entry for it (with an empty matches list) —
so the result is not "exactly one entry per file having at least one
matching line". -/
theorem c4_counterexample :
    searchCodebase (Json.str (("a\nb").data)) (some c4NlWs) =
      Except.ok [⟨("f.txt").data, []⟩] ∧
    matchingLines (("a\nb").data) (("a\nb").data) = [] :=
  ⟨rfl, rfl⟩

/-- C4 (amended): for every workspace with string contents and every
query **not containing a newline**, search returns exactly one entry per
file having at least one matching line — the filter-map of the per-file
"all matching lines" description — and, when the workspace's paths are
distinct (the JavaScript object invariant), entry files are distinct, so
there is exactly one entry per matching file. -/
theorem c4_search_characterization (ws : Workspace) (q : JStr)
    (hstr : ∀ pv ∈ ws.files, ∃ s, pv.2 = Json.str s)
    (hnl : '\n' ∉ q) :
    searchCodebase (Json.str q) (some ws) =
      Except.ok (ws.files.filterMap (specSearchEntry q)) ∧
    ((ws.files.map Prod.fst).Nodup →
      ((ws.files.filterMap (specSearchEntry q)).map SearchHit.file).Nodup) := by
  constructor
  · show ws.files.foldlM (searchStep (Json.str q)) [] = _
    rw [searchFold_spec hnl ws.files [] hstr, List.nil_append]
  · intro hnodup
    exact List.Nodup.sublist (searchEntries_files_sublist q ws.files) hnodup

/-- C4 witness: the spec's own example — one file whose lines are
`console.log("hello world")` and `say hello again`, query `hello` —
yields exactly one entry with both lines verbatim. -/
theorem c4_search_witness :
    searchCodebase (Json.str (("hello").data)) (some c4HelloWs) =
      Except.ok (c4HelloWs.files.filterMap (specSearchEntry (("hello").data))) ∧
    c4HelloWs.files.filterMap (specSearchEntry (("hello").data)) =
      [⟨("a.js").data,
        [("console.log(\"hello world\")").data, ("say hello again").data]⟩] :=
  ⟨(c4_search_characterization c4HelloWs (("hello").data)
      (by
        rintro pv hpv
        have hv : pv = ((("a.js").data : JStr),
            Json.str (("console.log(\"hello world\")\nsay hello again").data)) := by
          simpa [c4HelloWs] using hpv
        rw [hv]
        exact ⟨_, rfl⟩)
      (by decide)).1,
   rfl⟩

/-- C1 counterexample: with a planning response that is not JSON and a
well-formed execution response, the workflow does **not** transition
directly to Failed: it makes the second LLM call (two prompts issued) and
ends with `success: true` — refuting "no second LLM call" and the claimed
error/raw result shape. -/
theorem c1_counterexample :
    jsonParse (c1Llm 0) = none ∧
    (executeAgentWorkflow c1Llm ocAlways (some wsEmpty) (("task").data)).toOption.map
        (fun t => (t.result.success, t.prompts.length)) = some (true, 2) :=
  ⟨rfl, rfl⟩

/-- C1 (amended): when the planning response does not parse as JSON,
`planTask` returns the Plan-shaped error value — non-empty `error` field,
`raw` equal to the LLM's literal output — and the workflow continues: it
gathers nothing (empty context) and still issues the second (execution)
LLM call with the error plan embedded; the run's outcome is whatever the
execution phase produces. -/
theorem c1_plan_parse_failure_continues (llm : Nat → JStr)
    (oc : Nat → Option JStr) (ws? : Option Workspace) (task : JStr)
    (h : jsonParse (llm 0) = none) :
    jsGet (planTask (llm 0)) keyError =
      Json.str (("Failed to parse plan").data) ∧
    jsGet (planTask (llm 0)) keyRaw = Json.str (llm 0) ∧
    executeAgentWorkflow llm oc ws? task =
      Except.ok
        { result := (executePhase oc ws? (planFailObj (llm 0)) (llm 1)).1
          workspace := (executePhase oc ws? (planFailObj (llm 0)) (llm 1)).2.1
          prompts := [Prompt.planning task,
            Prompt.execution task (planFailObj (llm 0)) emptyCtx]
          remoteCalls := (executePhase oc ws? (planFailObj (llm 0)) (llm 1)).2.2 } := by
  have hplan : planTask (llm 0) = planFailObj (llm 0) := by
    rw [planTask, h]
  refine ⟨by rw [hplan]; rfl, by rw [hplan]; rfl, ?_⟩
  simp only [executeAgentWorkflow, hplan]
  rfl

/-- C1 witness: with both stub responses unparseable, the planning error
plan still preserves the literal planning output in `raw`. -/
theorem c1_plan_parse_witness :
    jsonParse (c1LlmBoth 0) = none ∧
    jsGet (planTask (c1LlmBoth 0)) keyRaw = Json.str (c1LlmBoth 0) :=
  ⟨rfl, (c1_plan_parse_failure_continues c1LlmBoth ocAlways none (("t").data) rfl).2.1⟩

/-- C10: when the gathering phase succeeds and the execution-phase
response parses as JSON but its `changes` field is absent or an empty
list, the workflow returns the `No changes generated` failure result —
`success` is false — leaving the workspace store entry untouched and
attempting no remote commit call. -/
theorem c10_no_changes (llm : Nat → JStr) (oc : Nat → Option JStr)
    (ws? : Option Workspace) (task : JStr) (ctx : Context) (r : Json)
    (hg : gatherPhase ws? (planTask (llm 0)) = Except.ok ctx)
    (hp : jsonParse (llm 1) = some r)
    (hc : jsGet r keyChanges = Json.undef ∨ jsGet r keyChanges = Json.arr []) :
    executeAgentWorkflow llm oc ws? task =
      Except.ok
        { result := AgentResult.noChanges (llm 1)
          workspace := ws?
          prompts := [Prompt.planning task,
            Prompt.execution task (planTask (llm 0)) ctx]
          remoteCalls := [] } ∧
    (AgentResult.noChanges (llm 1)).success = false ∧
    (AgentResult.noChanges (llm 1)).errorField =
      Json.str (("No changes generated").data) := by
  have hcond : (truthy (jsGet r keyChanges) &&
      jsLengthGtZero (jsGet r keyChanges)) = false := by
    rcases hc with h | h <;> rw [h] <;> rfl
  have hex : executePhase oc ws? (planTask (llm 0)) (llm 1) =
      (AgentResult.noChanges (llm 1), ws?, []) := by
    rw [executePhase, hp]
    simp only [hcond, Bool.false_eq_true, if_false]
  simp only [executeAgentWorkflow, hg, hex]
  exact ⟨rfl, rfl, rfl⟩

/-- C10 witness: a parsed execution response with no `changes` field
yields the `No changes generated` result with no workspace mutation and
no remote call. -/
theorem c10_no_changes_witness :
    executeAgentWorkflow c10Llm ocAlways (some wsEmpty) (("t").data) =
      Except.ok
        { result := AgentResult.noChanges (c10Llm 1)
          workspace := some wsEmpty
          prompts := [Prompt.planning (("t").data),
            Prompt.execution (("t").data) (planTask (c10Llm 0)) emptyCtx]
          remoteCalls := [] } :=
  (c10_no_changes c10Llm ocAlways (some wsEmpty) (("t").data) emptyCtx
    (Json.obj [(keyReasoning, Json.str (("n").data))]) rfl rfl (Or.inl rfl)).1

/-- C6 counterexample: the message `please deploy this` is classified as
the `approve` intent (keyword `deploy` belongs to the approve list) and
routed to the commit step — there is no fourth `deploy` intent and no
deployment-instructions response. -/
theorem c6_counterexample :
    analyzeUserIntent (("please deploy this").data) = Intent.approve ∧
    chatRoute (analyzeUserIntent (("please deploy this").data)) =
      ChatAction.commitStep :=
  ⟨rfl, rfl⟩

/-- C6 (amended): the chat endpoint classifies a message into one of the
**three** types approve, modify, general by substring keyword matching on
the lowercased message (with `deploy` one of the approve keywords), and
routes approve to the commit step, modify to a code-modification LLM
call, and general to a plain conversational LLM call. -/
theorem c6_intent_classification (m : JStr) :
    (analyzeUserIntent m = Intent.approve ↔
      ∃ kw ∈ approveKeywords, includesJ (toLowerJ m) kw = true) ∧
    (analyzeUserIntent m = Intent.modify ↔
      ((∀ kw ∈ approveKeywords, includesJ (toLowerJ m) kw = false) ∧
       ∃ kw ∈ modifyKeywords, includesJ (toLowerJ m) kw = true)) ∧
    (analyzeUserIntent m = Intent.general ↔
      ((∀ kw ∈ approveKeywords, includesJ (toLowerJ m) kw = false) ∧
       (∀ kw ∈ modifyKeywords, includesJ (toLowerJ m) kw = false))) ∧
    chatRoute Intent.approve = ChatAction.commitStep ∧
    chatRoute Intent.modify = ChatAction.modificationCall ∧
    chatRoute Intent.general = ChatAction.conversationCall := by
  by_cases ha : approveKeywords.any (fun kw => includesJ (toLowerJ m) kw) = true
  · have hint : analyzeUserIntent m = Intent.approve := by
      simp only [analyzeUserIntent, ha, if_true]
    have hex : ∃ kw ∈ approveKeywords, includesJ (toLowerJ m) kw = true := by
      simpa using List.any_eq_true.mp ha
    refine ⟨⟨fun _ => hex, fun _ => hint⟩, ?_, ?_, rfl, rfl, rfl⟩
    · constructor
      · intro hcon
        rw [hint] at hcon
        exact absurd hcon (by decide)
      · rintro ⟨hall, -⟩
        obtain ⟨kw, hkw, hin⟩ := hex
        rw [hall kw hkw] at hin
        exact absurd hin (by decide)
    · constructor
      · intro hcon
        rw [hint] at hcon
        exact absurd hcon (by decide)
      · rintro ⟨hall, -⟩
        obtain ⟨kw, hkw, hin⟩ := hex
        rw [hall kw hkw] at hin
        exact absurd hin (by decide)
  · have ha' : approveKeywords.any (fun kw => includesJ (toLowerJ m) kw) = false :=
      Bool.eq_false_iff.mpr ha
    have haf : ∀ kw ∈ approveKeywords, includesJ (toLowerJ m) kw = false := by
      intro kw hkw
      by_contra hc
      refine ha (List.any_eq_true.mpr ⟨kw, hkw, ?_⟩)
      cases hx : includesJ (toLowerJ m) kw
      · exact absurd hx hc
      · rfl
    have hnoex : ¬ ∃ kw ∈ approveKeywords, includesJ (toLowerJ m) kw = true := by
      rintro ⟨kw, hkw, hin⟩
      rw [haf kw hkw] at hin
      exact absurd hin (by decide)
    by_cases hm : modifyKeywords.any (fun kw => includesJ (toLowerJ m) kw) = true
    · have hint : analyzeUserIntent m = Intent.modify := by
        simp only [analyzeUserIntent, ha', Bool.false_eq_true, if_false, hm, if_true]
      have hex : ∃ kw ∈ modifyKeywords, includesJ (toLowerJ m) kw = true := by
        simpa using List.any_eq_true.mp hm
      refine ⟨?_, ⟨fun _ => ⟨haf, hex⟩, fun _ => hint⟩, ?_, rfl, rfl, rfl⟩
      · constructor
        · intro hcon
          rw [hint] at hcon
          exact absurd hcon (by decide)
        · intro hcon
          exact absurd hcon hnoex
      · constructor
        · intro hcon
          rw [hint] at hcon
          exact absurd hcon (by decide)
        · rintro ⟨-, hallm⟩
          obtain ⟨kw, hkw, hin⟩ := hex
          rw [hallm kw hkw] at hin
          exact absurd hin (by decide)
    · have hm' : modifyKeywords.any (fun kw => includesJ (toLowerJ m) kw) = false :=
        Bool.eq_false_iff.mpr hm
      have hmf : ∀ kw ∈ modifyKeywords, includesJ (toLowerJ m) kw = false := by
        intro kw hkw
        by_contra hc
        refine hm (List.any_eq_true.mpr ⟨kw, hkw, ?_⟩)
        cases hx : includesJ (toLowerJ m) kw
        · exact absurd hx hc
        · rfl
      have hint : analyzeUserIntent m = Intent.general := by
        simp only [analyzeUserIntent, ha', hm', Bool.false_eq_true, if_false]
      refine ⟨?_, ?_, ⟨fun _ => ⟨haf, hmf⟩, fun _ => hint⟩, rfl, rfl, rfl⟩
      · constructor
        · intro hcon
          rw [hint] at hcon
          exact absurd hcon (by decide)
        · intro hcon
          exact absurd hcon hnoex
      · constructor
        · intro hcon
          rw [hint] at hcon
          exact absurd hcon (by decide)
        · rintro ⟨-, hex⟩
          obtain ⟨kw, hkw, hin⟩ := hex
          rw [hmf kw hkw] at hin
          exact absurd hin (by decide)

end RefactVibe
